import Mathlib

/-!
Verification of the retrieval pipeline of the ai-interprep repository.

The development shallowly embeds the Python sources `ingest.py`,
`ingest_technical_qa.py` and `rag_api.py`.  External collaborators
(the ChromaDB vector store, the Gemini embedding endpoint and the
LangChain recursive text splitter) are modelled at their interfaces:
the splitter body is a function parameter, the embedding service is a
function parameter that may fail (`Option`), and the store's
nearest-neighbour query is modelled from the spec as "the n candidates
of smallest distance, in ascending order".  Embedding vectors and
distances are opaque payloads: no floating-point arithmetic from the
sources is re-modelled, only ordering and equality of already-given
values are used.
-/

/-! ### Python string primitives used by the sources -/

/-- Characters removed by Python's `str.strip()` for ASCII input. -/
def isPySpace (c : Char) : Bool :=
  c = ' ' || c = '\t' || c = '\n' || c = '\r' || c = '\x0b' || c = '\x0c'

/-- Python `s.strip()` (ASCII whitespace; the sources only pass ASCII text). -/
def pyStrip (s : String) : String :=
  String.mk (((s.data.dropWhile isPySpace).reverse.dropWhile isPySpace).reverse)

/-- Python `s.lower()` (ASCII case folding). -/
def pyLower (s : String) : String :=
  String.mk (s.data.map Char.toLower)

/-- Decidable equality for the `Except` results returned by the chunker. -/
instance : DecidableEq (Except String (List String)) := fun a b =>
  match a, b with
  | .ok x, .ok y =>
    if h : x = y then isTrue (by rw [h]) else isFalse (fun hc => h (Except.ok.inj hc))
  | .error x, .error y =>
    if h : x = y then isTrue (by rw [h]) else isFalse (fun hc => h (Except.error.inj hc))
  | .ok _, .error _ => isFalse (fun hc => Except.noConfusion hc)
  | .error _, .ok _ => isFalse (fun hc => Except.noConfusion hc)

/-- Does the character list `l` start with `p`? (helper for substring search). -/
def charListStartsWith : List Char → List Char → Bool
  | [], _ => true
  | _ :: _, [] => false
  | p :: ps, c :: cs => p == c && charListStartsWith ps cs

/-- Does the character list `l` contain `pat` as a contiguous run? -/
def charListHas (pat : List Char) : List Char → Bool
  | [] => pat.isEmpty
  | c :: cs => charListStartsWith pat (c :: cs) || charListHas pat cs

/-- Python `pat in s` for strings: substring containment. -/
def pyIn (pat s : String) : Bool :=
  charListHas pat.data s.data

/-! ### Chunker (`ingest.chunk_description`, `ingest_technical_qa.chunk_text`)

The recursive splitting itself is performed by the external LangChain
`RecursiveCharacterTextSplitter`; it is taken as a parameter
`split : chunk_size → chunk_overlap → text → chunks`.  Its constructor
validation (from the LangChain library source,
`TextSplitter.__init__`: `if chunk_overlap > chunk_size: raise ValueError`)
is the only part of the library that is modelled concretely, as the
`Except.error` branch below. -/

/-- Type of the external splitter body: chunk_size, chunk_overlap, text. -/
def SplitFn : Type := Nat → Nat → String → List String

namespace Ingest

/-- Embedding of `ingest.chunk_description` (ingest.py lines 43-68).
Source: `if not description or len(description.strip()) == 0: return
[description] if description else [""]`, then the LangChain splitter is
constructed (which raises when `chunk_overlap > chunk_size`) and
`split_text(description)` is returned.  A raised Python exception is
modelled as `Except.error`. -/
def chunk_description (split : SplitFn) (description : String)
    (chunk_size : Nat) (chunk_overlap : Nat) : Except String (List String) :=
  if description = "" ∨ pyStrip description = "" then
    .ok (if description = "" then [""] else [description])
  else if chunk_overlap > chunk_size then
    .error "Got a larger chunk overlap than chunk size"
  else
    .ok (split chunk_size chunk_overlap description)

/-- Does the call `chunk_description split text cs co` raise (propagate a
Python exception) instead of returning a chunk list? -/
def chunkRaises (split : SplitFn) (text : String) (cs co : Nat) : Bool :=
  match chunk_description split text cs co with
  | .error _ => true
  | .ok _ => false

end Ingest

namespace TechQA

/-- Embedding of `ingest_technical_qa.chunk_text` (lines 49-62); its body is
verbatim identical to `ingest.chunk_description`. -/
def chunk_text (split : SplitFn) (text : String)
    (chunk_size : Nat) (chunk_overlap : Nat) : Except String (List String) :=
  Ingest.chunk_description split text chunk_size chunk_overlap

end TechQA

namespace RagApi

/-- Embedding of the `task_type` selection inside `rag_api.get_embedding`
(rag_api.py line 53): `task_type="retrieval_query" if "query" in
text.lower() else "retrieval_document"`.  The surrounding `genai.embed_content`
call is the external embedding endpoint and is not modelled; the claim under
test concerns only which intent the primary request carries. -/
def get_embedding_task_type (text : String) : String :=
  if pyIn "query" (pyLower text) then "retrieval_query" else "retrieval_document"

/-! ### RetrievalService (`rag_api.retrieve_experiences`) -/

/-- An indexed chunk as the retrieval endpoint sees it: its id, the metadata
written at ingestion time, and the distance the vector store reports between
the chunk's stored embedding and the query embedding.  Distances are opaque
ordered values (`Int` here); the store's floating-point metric is external
and only the ordering it induces matters to the endpoint. -/
structure ChunkEntry where
  chunk_id : String
  experience_id : Int
  title : String
  company : String
  star_format : String
  dist : Int
deriving DecidableEq, Repr

/-- Response item of the endpoint (`class Experience` in rag_api.py). -/
structure Experience where
  id : Int
  title : String
  company : String
  star_format : String
deriving DecidableEq, Repr

/-- Ascending-distance comparison ordering the store's candidates. -/
def distLe (a b : ChunkEntry) : Prop := a.dist ≤ b.dist

instance : DecidableRel distLe := fun a b => Int.decLe a.dist b.dist

instance : IsTotal ChunkEntry distLe := ⟨fun a b => Int.le_total a.dist b.dist⟩

instance : IsTrans ChunkEntry distLe := ⟨fun _ _ _ h1 h2 => le_trans h1 h2⟩

/-- Modelled from the spec: `collection.query(query_embeddings, n_results)` of
the external ChromaDB store returns the `n_results` stored chunks nearest to
the query, in ascending order of distance, clamped to the collection size. -/
def queryNearest (coll : List ChunkEntry) (n : Nat) : List ChunkEntry :=
  (List.insertionSort distLe coll).take n

/-- Candidate chunks fetched by `retrieve_experiences` (rag_api.py lines
101-112): `n_results = min(request.top_k * 3, collection.count())`. -/
def fetched (coll : List ChunkEntry) (top_k : Nat) : List ChunkEntry :=
  queryNearest coll (min (top_k * 3) coll.length)

/-- Response item built from a candidate chunk's metadata (lines 132-137). -/
def mkExperience (c : ChunkEntry) : Experience :=
  ⟨c.experience_id, c.title, c.company, c.star_format⟩

/-- Embedding of the deduplication loop of `retrieve_experiences` (lines
114-137): walk the candidates in order; a chunk whose `experience_id` was
already seen is skipped (`continue`); otherwise, if `top_k` experiences have
already been collected, stop (`break`); otherwise mark the id as seen and
append the chunk's experience summary. -/
def retrieveGo (top_k : Nat) : List ChunkEntry → List Int → List Experience → List Experience
  | [], _, experiences => experiences
  | c :: rest, seen, experiences =>
    if c.experience_id ∈ seen then retrieveGo top_k rest seen experiences
    else if top_k ≤ experiences.length then experiences
    else retrieveGo top_k rest (c.experience_id :: seen) (experiences ++ [mkExperience c])

/-- Deduplication phase of the endpoint applied to the fetched candidates,
starting from an empty seen-set and an empty result list. -/
def processResults (top_k : Nat) (candidates : List ChunkEntry) : List Experience :=
  retrieveGo top_k candidates [] []

/-- Embedding of the body of `retrieve_experiences`: fetch
`min(top_k*3, count)` nearest chunks, then deduplicate by `experience_id`. -/
def retrieve (coll : List ChunkEntry) (top_k : Nat) : List Experience :=
  processResults top_k (fetched coll top_k)

/-- First occurrence of each `experience_id` in a candidate list, relative to
an already-seen key set: the chunks the dedup loop would keep were `top_k`
unbounded. -/
def firstOccAux : List ChunkEntry → List Int → List ChunkEntry
  | [], _ => []
  | c :: rest, seen =>
    if c.experience_id ∈ seen then firstOccAux rest seen
    else c :: firstOccAux rest (c.experience_id :: seen)

/-- Chunks the dedup loop actually emits: the first `top_k` first occurrences
of distinct `experience_id`s among the fetched candidates. -/
def chosen (coll : List ChunkEntry) (top_k : Nat) : List ChunkEntry :=
  (firstOccAux (fetched coll top_k) []).take top_k

end RagApi

/-! ### Claim C2 -/

/-- Concrete collection refuting claim C2: source record 1 has six indexed
chunks, all closer to the query than record 2's only chunk. -/
def collC2 : List RagApi.ChunkEntry :=
  [⟨"exp_1_chunk_0", 1, "A", "X", "S1", 1⟩,
   ⟨"exp_1_chunk_1", 1, "A", "X", "S1", 2⟩,
   ⟨"exp_1_chunk_2", 1, "A", "X", "S1", 3⟩,
   ⟨"exp_1_chunk_3", 1, "A", "X", "S1", 4⟩,
   ⟨"exp_1_chunk_4", 1, "A", "X", "S1", 5⟩,
   ⟨"exp_1_chunk_5", 1, "A", "X", "S1", 6⟩,
   ⟨"exp_2_chunk_0", 2, "B", "Y", "S2", 10⟩]

/-- Concrete collection with two records at distinct distances, used to
witness the amended claim C2. -/
def collC2W : List RagApi.ChunkEntry :=
  [⟨"exp_1_chunk_0", 1, "A", "X", "S1", 1⟩,
   ⟨"exp_2_chunk_0", 2, "B", "Y", "S2", 2⟩]

/-! ### IngestionPipeline (`ingest.py`) -/

/-- Embedding vectors are opaque payloads here: the ingestion code never
computes on their float components, it only stores them. -/
def Vec : Type := List Int

instance : DecidableEq Vec := inferInstanceAs (DecidableEq (List Int))

/-- The external Gemini embedding endpoint: given an optional `task_type`
(`none` models a request with the task type omitted) and a text, it may
return a vector or fail; `none` models a raised exception. -/
def EmbedSvc : Type := Option String → String → Option Vec

namespace Ingest

/-- Embedding of `ingest.get_embedding` (ingest.py lines 71-94): the primary
request carries `task_type="retrieval_document"`; on failure exactly one
retry is made with the task type omitted; if the retry also fails the
exception propagates (`none`). -/
def get_embedding (svc : EmbedSvc) (text : String) : Option Vec :=
  match svc (some "retrieval_document") text with
  | some v => some v
  | none => svc none text

/-- A source record of `experiences.json` as `ingest.main` reads it; optional
fields read with `exp.get(..., '')` default to the empty string. -/
structure Exp where
  id : Int
  title : String
  company : String
  description : String
  situation : String
  task : String
  action : String
  result : String
deriving DecidableEq

/-- Embedding of `ingest.create_star_format_text` (lines 97-107). -/
def create_star_format_text (exp : Exp) : String :=
  "EXPERIENCE " ++ toString exp.id ++ " - " ++ exp.title ++ ":\n" ++
  "Situation: \"" ++ exp.situation ++ "\"\n\n" ++
  "Task: \"" ++ exp.task ++ "\"\n\n" ++
  "Action: \"" ++ exp.action ++ "\"\n\n" ++
  "Result: \"" ++ exp.result ++ "\"\n"

/-- Chunk list of `chunk_description` as `ingest.main` consumes it with the
fixed parameters `(300, 50)`; the `Except.error` branch is unreachable there
because `50 > 300` is false (an exception would abort the whole run). -/
def chunk_description_list (split : SplitFn) (description : String)
    (chunk_size chunk_overlap : Nat) : List String :=
  match chunk_description split description chunk_size chunk_overlap with
  | .ok l => l
  | .error _ => []

/-- Python truthiness test of `ingest.main` line 169: `not description_chunks
or (len(description_chunks) == 1 and not description_chunks[0].strip())`. -/
def needsFallback (chunks : List String) : Bool :=
  chunks.isEmpty || (chunks.length == 1 && pyStrip (chunks.headD "") == "")

/-- Chunks of one experience as built by `ingest.main` lines 166-184: the
description is chunked; if that yields no usable text a single fallback
document is synthesized from the structured fields; otherwise each chunk is
prefixed with title and company. -/
def recordChunks (split : SplitFn) (exp : Exp) : List String :=
  let description_chunks := chunk_description_list split exp.description 300 50
  if needsFallback description_chunks then
    ["Title: " ++ exp.title ++ "\nCompany: " ++ exp.company ++ "\n" ++
     "Situation: " ++ exp.situation ++ "\n" ++
     "Task: " ++ exp.task ++ "\n" ++
     "Action: " ++ exp.action ++ "\n" ++
     "Result: " ++ exp.result]
  else
    description_chunks.map
      (fun chunk => "Title: " ++ exp.title ++ "\nCompany: " ++ exp.company
        ++ "\nDescription: " ++ chunk)

/-- One persisted tuple of the `experience_store` collection: id, vector,
document and the metadata dict of `ingest.main` lines 197-208. -/
structure IndexEntry where
  chunk_id : String
  embedding : Vec
  document : String
  experience_id : Int
  title : String
  company : String
  chunk_index : Nat
  total_chunks : Nat
  star_format : String
deriving DecidableEq

/-- Index entry built for chunk `chunk_idx` of `exp`; `total` is
`len(description_chunks)` and the id is `exp_{id}_chunk_{chunk_idx}`. -/
def entryFor (exp : Exp) (chunk_idx : Nat) (ctext : String) (total : Nat)
    (embedding : Vec) : IndexEntry :=
  ⟨"exp_" ++ toString exp.id ++ "_chunk_" ++ toString chunk_idx,
   embedding, ctext, exp.id, exp.title, exp.company, chunk_idx, total,
   create_star_format_text exp⟩

/-- Entries accumulated for one experience (inner loop of `ingest.main`,
lines 186-209): each chunk is embedded; on failure that chunk alone is
skipped (`continue`) while the others proceed. -/
def recordEntries (split : SplitFn) (svc : EmbedSvc) (exp : Exp) : List IndexEntry :=
  let chunks := recordChunks split exp
  chunks.enum.filterMap (fun p =>
    match get_embedding svc p.2 with
    | none => none
    | some emb => some (entryFor exp p.1 p.2 chunks.length emb))

/-- All entries accumulated across the corpus (outer loop of `ingest.main`):
the shared `ids`/`embeddings`/`documents`/`metadatas` lists in record order. -/
def ingestEntries (split : SplitFn) (svc : EmbedSvc) (exps : List Exp) : List IndexEntry :=
  exps.flatMap (recordEntries split svc)

/-- All (record, chunk_index, chunk text) triples the ingestion loop visits,
in visiting order. -/
def allChunks (split : SplitFn) (exps : List Exp) : List (Exp × Nat × String) :=
  exps.flatMap (fun e => (recordChunks split e).enum.map (fun p => (e, p.1, p.2)))

/-- Modelled from the spec: the persisted collection keyed by `chunk_id`.
The spec's VectorIndex invariant says writing a `chunk_id` that is already
present overwrites the stored tuple instead of appending a duplicate; the
underlying ChromaDB client is external to this repository. -/
def Store : Type := List IndexEntry

/-- The freshly (re)created collection. -/
def emptyStore : Store := []

/-- The ids currently present in the collection. -/
def storeKeys (s : Store) : List String := s.map (fun e => e.chunk_id)

/-- ChromaDB `collection.count()`. -/
def storeSize (s : Store) : Nat := s.length

/-- Modelled from the spec: write one entry, overwriting in place the entry
with the same `chunk_id` when present and appending otherwise. -/
def upsert1 : Store → IndexEntry → Store
  | [], e => [e]
  | x :: rest, e =>
    if x.chunk_id = e.chunk_id then e :: rest else x :: upsert1 rest e

/-- Write one batch of entries in order (`collection.add` on one batch). -/
def addBatch (s : Store) (es : List IndexEntry) : Store :=
  es.foldl upsert1 s

/-- Batch slicing of `ingest.main` lines 218-228: `total_batches =
(len + batch_size - 1) // batch_size` and batch `i` is the slice
`[i*batch_size : min((i+1)*batch_size, len)]`. -/
def storeBatches (es : List IndexEntry) (batch_size : Nat) : List (List IndexEntry) :=
  let total_batches := (es.length + batch_size - 1) / batch_size
  (List.range total_batches).map (fun i =>
    (es.drop (i * batch_size)).take
      (min ((i + 1) * batch_size) es.length - i * batch_size))

/-- The batched write loop of `ingest.main` lines 221-235 (`batch_size = 100`)
applied to the entries of one ingestion run over `exps`. -/
def ingestRun (s : Store) (split : SplitFn) (svc : EmbedSvc) (exps : List Exp) : Store :=
  (storeBatches (ingestEntries split svc exps) 100).foldl addBatch s

/-- An embedding service whose failures are described by a predicate `bad` on
the text and whose successful vectors are given by `f`; it behaves the same
for both attempts (primary with intent, retry without), so a `bad` text fails
both attempts.  Used to state which chunks an ingestion run skips. -/
def mkSvc (bad : String → Bool) (f : String → Vec) : EmbedSvc :=
  fun _ text => if bad text then none else some (f text)

end Ingest

/-- Embedding service for the C6 witness: every request that carries a task
type fails, every request without one succeeds with vector `[1]`. -/
def svcC6W : EmbedSvc := fun i _ =>
  match i with
  | some _ => none
  | none => some ([1] : Vec)

/-- Experience record for the C6 witness. -/
def expC6W : Ingest.Exp := ⟨1, "T", "C", "d", "s", "t", "a", "r"⟩

/-- Index entry for the C4 witness. -/
def entC4W : Ingest.IndexEntry := ⟨"exp_1_chunk_0", [0], "doc", 1, "T", "C", 0, 1, "sf"⟩

/-- Experience record for the C4 witness. -/
def expC4W : Ingest.Exp := ⟨1, "T", "C", "some description", "s", "t", "a", "r"⟩

namespace TechQA

/-! ### Technical Q&A ingestion (`ingest_technical_qa.py`) -/

/-- Embedding of `ingest_technical_qa.get_embedding` (lines 65-86); its body
is verbatim identical to `ingest.get_embedding`: primary request with the
document intent, one retry with the intent omitted. -/
def get_embedding (svc : EmbedSvc) (text : String) : Option Vec :=
  Ingest.get_embedding svc text

/-- A record of `technical_qa.json`; `id` is `none` when the key is absent,
in which case `qa.get('id', i)` falls back to the 1-based loop index. -/
structure QA where
  id : Option Int
  question : String
  answer : String
  tags : List String
  category : String
deriving DecidableEq

/-- Effective id of the `i`-th (1-based) Q&A pair: `qa.get('id', i)`. -/
def qaId (qa : QA) (i : Int) : Int := qa.id.getD i

/-- Embedding of `create_text_for_embedding` (lines 89-101). -/
def create_text_for_embedding (qa : QA) : String :=
  String.intercalate "\n\n"
    (["Question: " ++ qa.question, "Answer: " ++ qa.answer]
      ++ (if qa.tags ≠ [] then ["Tags: " ++ String.intercalate ", " qa.tags] else [])
      ++ (if qa.category ≠ "" then ["Category: " ++ qa.category] else []))

/-- One persisted tuple of the `technical_qa` collection with the metadata
dict of `main` (lines 179-190 and 201-212). -/
structure QAEntry where
  chunk_id : String
  embedding : Vec
  document : String
  qa_id : Int
  question_meta : String
  answer_meta : String
  tags_meta : String
  category_meta : String
  chunk_index : Nat
  total_chunks : Nat
deriving DecidableEq

/-- Chunk list of `chunk_text` as `main` consumes it at `(300, 50)`; the
error branch is unreachable there because `50 > 300` is false. -/
def chunk_text_list (split : SplitFn) (text : String) : List String :=
  match chunk_text split text 300 50 with
  | .ok l => l
  | .error _ => []

/-- Text of answer part `chunk_idx` of a long answer (lines 165-169). -/
def longAnswerChunkText (qa : QA) (chunk_idx : Nat) (answer_chunk : String) : String :=
  "Question: " ++ qa.question ++ "\n\nAnswer (part " ++ toString (chunk_idx + 1)
    ++ "): " ++ answer_chunk
  ++ (if qa.tags ≠ [] then "\n\nTags: " ++ String.intercalate ", " qa.tags else "")
  ++ (if qa.category ≠ "" then "\nCategory: " ++ qa.category else "")

/-- Entries produced for the `i`-th (1-based) Q&A pair (`main` lines
153-212): an answer longer than 500 characters is chunked and chunk `idx`
gets id `qa_{id}_chunk_{idx}`; otherwise the searchable text becomes the
single entry `qa_{id}` with `chunk_index 0` and `total_chunks 1`.  A chunk
whose embedding fails is skipped. -/
def qaEntriesFor (split : SplitFn) (svc : EmbedSvc) (i : Int) (qa : QA) : List QAEntry :=
  let answer := qa.answer
  if answer.length > 500 then
    let answer_chunks := chunk_text_list split answer
    answer_chunks.enum.filterMap (fun p =>
      match get_embedding svc (longAnswerChunkText qa p.1 p.2) with
      | none => none
      | some emb => some
          ⟨"qa_" ++ toString (qaId qa i) ++ "_chunk_" ++ toString p.1,
           emb, longAnswerChunkText qa p.1 p.2, qaId qa i,
           qa.question.take 200, answer.take 500,
           String.intercalate ", " qa.tags, qa.category,
           p.1, answer_chunks.length⟩)
  else
    match get_embedding svc (create_text_for_embedding qa) with
    | none => []
    | some emb =>
      [⟨"qa_" ++ toString (qaId qa i), emb, create_text_for_embedding qa,
        qaId qa i, qa.question.take 200, answer.take 500,
        String.intercalate ", " qa.tags, qa.category, 0, 1⟩]

/-- All entries accumulated across the Q&A corpus (`enumerate(qa_pairs, 1)`
in `main`). -/
def qaIngestEntries (split : SplitFn) (svc : EmbedSvc) (qas : List QA) : List QAEntry :=
  qas.enum.flatMap (fun p => qaEntriesFor split svc ((p.1 : Int) + 1) p.2)

end TechQA

/-- Q&A record for the C10 witness. -/
def qaC10W : TechQA.QA := ⟨some 7, "q", "short", [], ""⟩

/-! ### Claim C1 -/

/-- Claim C1 (code_bug evidence): the spec says the query embedding always
uses intent `query` (`task_type="retrieval_query"`), but `rag_api.get_embedding`
chooses the task type by looking for the literal substring `"query"` in the
lowercased text.  For the query "Tell me about your leadership experience"
the primary request carries `retrieval_document`, not `retrieval_query`,
while a query containing the word "query" does get `retrieval_query`:
the intent depends on the content of the query text. -/
theorem c1_query_intent_depends_on_text :
    RagApi.get_embedding_task_type "Tell me about your leadership experience"
      = "retrieval_document"
    ∧ RagApi.get_embedding_task_type "Tell me about your leadership experience"
      ≠ "retrieval_query"
    ∧ RagApi.get_embedding_task_type "a query about leadership"
      = "retrieval_query" := by
  refine ⟨rfl, ?_, rfl⟩
  decide

/-! ### Claim C7 -/

/-- Claim C7 (counterexample): the claim says every empty-or-whitespace-only
input yields the single chunk `[""]`.  For the whitespace-only input `"   "`
the code takes the branch `return [description] if description else [""]`
with `description` truthy, so it returns `["   "]`, not `[""]`. -/
theorem c7_whitespace_counterexample :
    Ingest.chunk_description (fun _ _ s => [s]) "   " 300 50 = .ok ["   "]
    ∧ Ingest.chunk_description (fun _ _ s => [s]) "   " 300 50 ≠ .ok [""] := by
  refine ⟨rfl, ?_⟩
  decide

/-- Claim C7 (amended): for every input that is empty or whitespace-only the
chunker returns, without failing, a single-element chunk list; the element is
the empty string when the input is empty and the original (whitespace) text
otherwise. -/
theorem c7_empty_text_single_chunk (split : SplitFn) (text : String)
    (cs co : Nat) (h : pyStrip text = "") :
    Ingest.chunk_description split text cs co
        = .ok (if text = "" then [""] else [text])
    ∧ (if text = "" then [""] else [text]).length = 1 := by
  constructor
  · unfold Ingest.chunk_description
    rw [if_pos (Or.inr h)]
  · by_cases ht : text = "" <;> simp [ht]

/-- Witness for `c7_empty_text_single_chunk` at the concrete whitespace
input `"   "` with the identity splitter. -/
theorem c7_empty_text_single_chunk_witness :
    pyStrip "   " = ""
    ∧ (Ingest.chunk_description (fun _ _ s => [s]) "   " 300 50
          = .ok (if "   " = "" then [""] else ["   "])
        ∧ (if "   " = "" then [""] else ["   "]).length = 1) :=
  ⟨by decide, c7_empty_text_single_chunk (fun _ _ s => [s]) "   " 300 50 (by decide)⟩

/-! ### Claim C8 -/

/-- Claim C8 (counterexample): the claim says every call with
`overlap ≥ max_size` fails fast before producing chunks.  With
`overlap = max_size = 300` and non-whitespace text nothing raises: the
LangChain constructor check only rejects `overlap > max_size`, so the call
returns the splitter's chunks. -/
theorem c8_overlap_eq_size_counterexample :
    Ingest.chunk_description (fun _ _ s => [s]) "hello world" 300 300
      = .ok ["hello world"]
    ∧ Ingest.chunkRaises (fun _ _ s => [s]) "hello world" 300 300 = false := by
  constructor <;> decide

/-- Claim C8 (amended): the chunker itself performs no sizing validation; a
call raises exactly when the text is neither empty nor whitespace-only (those
inputs return a single chunk before the splitter is constructed) and the
overlap strictly exceeds the chunk size.  In particular
`overlap = max_size` is accepted. -/
theorem c8_raise_condition (split : SplitFn) (text : String) (cs co : Nat) :
    Ingest.chunkRaises split text cs co
      = (!(text == "") && !(pyStrip text == "") && decide (cs < co)) := by
  unfold Ingest.chunkRaises Ingest.chunk_description
  by_cases h1 : text = ""
  · rw [if_pos (Or.inl h1)]
    simp [h1]
  · by_cases h2 : pyStrip text = ""
    · rw [if_pos (Or.inr h2)]
      simp [h1, h2]
    · rw [if_neg (by tauto)]
      by_cases h3 : cs < co
      · rw [if_pos h3]
        simp [h1, h2, h3]
      · rw [if_neg h3]
        simp [h1, h2, h3]

namespace RagApi

/-- Characterization of the dedup loop: from state `(seen, acc)` it extends
`acc` with the first occurrences of unseen keys, truncated to the remaining
budget `top_k - acc.length`. -/
theorem retrieveGo_eq (k : Nat) :
    ∀ (l : List ChunkEntry) (seen : List Int) (acc : List Experience),
      retrieveGo k l seen acc
        = acc ++ ((firstOccAux l seen).take (k - acc.length)).map mkExperience := by
  intro l
  induction l with
  | nil => intro seen acc; simp [retrieveGo, firstOccAux]
  | cons c rest ih =>
    intro seen acc
    by_cases hmem : c.experience_id ∈ seen
    · simp only [retrieveGo, firstOccAux, if_pos hmem]
      exact ih seen acc
    · by_cases hfull : k ≤ acc.length
      · simp only [retrieveGo, firstOccAux, if_neg hmem, if_pos hfull]
        have h0 : k - acc.length = 0 := Nat.sub_eq_zero_of_le hfull
        simp [h0]
      · simp only [retrieveGo, firstOccAux, if_neg hmem, if_neg hfull]
        rw [ih (c.experience_id :: seen) (acc ++ [mkExperience c])]
        have h1 : k - acc.length = (k - (acc.length + 1)) + 1 := by omega
        rw [h1, List.take_succ_cons, List.map_cons, List.length_append]
        simp

/-- The first-occurrence list is a subsequence of the candidate list. -/
theorem firstOccAux_sublist : ∀ (l : List ChunkEntry) (seen : List Int),
    List.Sublist (firstOccAux l seen) l
  | [], _ => List.Sublist.refl []
  | c :: rest, seen => by
    unfold firstOccAux
    by_cases h : c.experience_id ∈ seen
    · rw [if_pos h]
      exact (firstOccAux_sublist rest seen).cons c
    · rw [if_neg h]
      exact (firstOccAux_sublist rest _).cons₂ c

/-- Keys kept by the first-occurrence pass were not in the seen set. -/
theorem firstOccAux_not_seen : ∀ (l : List ChunkEntry) (seen : List Int)
    (e : ChunkEntry), e ∈ firstOccAux l seen → e.experience_id ∉ seen
  | [], _, _ => by simp [firstOccAux]
  | c :: rest, seen, e => by
    unfold firstOccAux
    by_cases h : c.experience_id ∈ seen
    · rw [if_pos h]
      exact firstOccAux_not_seen rest seen e
    · rw [if_neg h]
      intro hmem hseen
      rcases List.mem_cons.mp hmem with he | he
      · rw [he] at hseen
        exact h hseen
      · exact firstOccAux_not_seen rest _ e he (List.mem_cons_of_mem _ hseen)

/-- The first-occurrence pass emits each `experience_id` at most once. -/
theorem firstOccAux_keys_nodup : ∀ (l : List ChunkEntry) (seen : List Int),
    ((firstOccAux l seen).map (fun c => c.experience_id)).Nodup
  | [], _ => by simp [firstOccAux]
  | c :: rest, seen => by
    unfold firstOccAux
    by_cases h : c.experience_id ∈ seen
    · rw [if_pos h]
      exact firstOccAux_keys_nodup rest seen
    · rw [if_neg h]
      rw [List.map_cons]
      refine List.nodup_cons.mpr ⟨?_, firstOccAux_keys_nodup rest _⟩
      intro hmem
      rcases List.mem_map.mp hmem with ⟨e, he, hkey⟩
      apply firstOccAux_not_seen rest _ e he
      rw [hkey]
      exact List.mem_cons_self _ _

/-- The first-occurrence pass keeps exactly the keys of the candidate list
that are outside the seen set (so its length counts the distinct new keys). -/
theorem firstOccAux_mem_keys : ∀ (l : List ChunkEntry) (seen : List Int) (x : Int),
    x ∈ (firstOccAux l seen).map (fun c => c.experience_id)
      ↔ x ∈ l.map (fun c => c.experience_id) ∧ x ∉ seen
  | [], _, x => by simp [firstOccAux]
  | c :: rest, seen, x => by
    unfold firstOccAux
    by_cases h : c.experience_id ∈ seen
    · rw [if_pos h, firstOccAux_mem_keys rest seen x]
      simp only [List.map_cons, List.mem_cons]
      constructor
      · rintro ⟨hx, hns⟩
        exact ⟨Or.inr hx, hns⟩
      · rintro ⟨hx | hx, hns⟩
        · rw [hx] at hns
          exact absurd h hns
        · exact ⟨hx, hns⟩
    · rw [if_neg h]
      simp only [List.map_cons, List.mem_cons, firstOccAux_mem_keys rest _ x]
      constructor
      · rintro (hx | ⟨hx, hns⟩)
        · refine ⟨Or.inl hx, ?_⟩
          rw [hx]
          exact h
        · exact ⟨Or.inr hx, fun hc => hns (Or.inr hc)⟩
      · rintro ⟨hx | hx, hns⟩
        · exact Or.inl hx
        · by_cases hxc : x = c.experience_id
          · exact Or.inl hxc
          · exact Or.inr ⟨hx, fun hc => hc.elim hxc hns⟩

/-- On a candidate list sorted by ascending distance, each chunk kept by the
first-occurrence pass has minimal distance among the candidates sharing its
`experience_id`. -/
theorem firstOccAux_min_dist : ∀ (l : List ChunkEntry) (seen : List Int),
    l.Pairwise distLe →
    ∀ e ∈ firstOccAux l seen, ∀ c ∈ l,
      c.experience_id = e.experience_id → e.dist ≤ c.dist := by
  intro l
  induction l with
  | nil => intro seen _ e he; simp [firstOccAux] at he
  | cons d rest ih =>
    intro seen hp e he c hc hkey
    rcases List.pairwise_cons.mp hp with ⟨hd, hrest⟩
    unfold firstOccAux at he
    by_cases hm : d.experience_id ∈ seen
    · rw [if_pos hm] at he
      rcases List.mem_cons.mp hc with hcd | hcr
      · exfalso
        have hne := firstOccAux_not_seen rest seen e he
        rw [hcd] at hkey
        rw [hkey] at hm
        exact hne hm
      · exact ih seen hrest e he c hcr hkey
    · rw [if_neg hm] at he
      rcases List.mem_cons.mp he with hed | her
      · rw [hed]
        rcases List.mem_cons.mp hc with hcd | hcr
        · rw [hcd]
        · exact hd c hcr
      · rcases List.mem_cons.mp hc with hcd | hcr
        · exfalso
          have hne := firstOccAux_not_seen rest _ e her
          apply hne
          rw [hcd] at hkey
          rw [← hkey]
          exact List.mem_cons_self _ _
        · exact ih _ hrest e her c hcr hkey

/-- Fetched candidates come back sorted by ascending distance. -/
theorem fetched_pairwise (coll : List ChunkEntry) (k : Nat) :
    (fetched coll k).Pairwise distLe :=
  List.Pairwise.sublist (List.take_sublist _ _) (List.sorted_insertionSort distLe coll)

end RagApi

/-! ### Claim C3 -/

/-- Claim C3 (confirmed): the dedup walk over the ascending-distance
candidates is first-occurrence-wins.  The returned list is exactly the image
of the first `top_k` first occurrences of distinct `experience_id`s (so a
later chunk sharing a key with an earlier one contributes nothing and occupies
no result slot), each `experience_id` appears at most once, and the result
has length at most `top_k`. -/
theorem c3_dedup_first_occurrence_wins (coll : List RagApi.ChunkEntry) (k : Nat) :
    RagApi.retrieve coll k
        = ((RagApi.firstOccAux (RagApi.fetched coll k) []).take k).map RagApi.mkExperience
    ∧ ((RagApi.retrieve coll k).map RagApi.Experience.id).Nodup
    ∧ (RagApi.retrieve coll k).length ≤ k := by
  have hret : RagApi.retrieve coll k
      = ((RagApi.firstOccAux (RagApi.fetched coll k) []).take k).map RagApi.mkExperience := by
    unfold RagApi.retrieve RagApi.processResults
    rw [RagApi.retrieveGo_eq]
    simp
  refine ⟨hret, ?_, ?_⟩
  · rw [hret, List.map_map]
    have hkeys : ((RagApi.firstOccAux (RagApi.fetched coll k) []).take k).map
        (fun c => c.experience_id)
        = ((RagApi.firstOccAux (RagApi.fetched coll k) []).map
            (fun c => c.experience_id)).take k :=
      List.map_take _ _ _
    show (((RagApi.firstOccAux (RagApi.fetched coll k) []).take k).map
        (fun c => c.experience_id)).Nodup
    rw [hkeys]
    exact (RagApi.firstOccAux_keys_nodup _ _).sublist (List.take_sublist _ _)
  · rw [hret, List.length_map, List.length_take]
    omega

/-- Claim C2 (counterexample): `collC2` holds chunks of 2 distinct records,
each with at least one chunk, yet `retrieve` with `top_k = 2` returns a single
record id, not 2: the six fetched candidates (`min(2*3, 7) = 6`) all belong to
record 1, so deduplication exhausts the candidates after one distinct id. -/
theorem c2_counterexample :
    2 ≤ ((RagApi.firstOccAux collC2 []).map (fun c => c.experience_id)).length
    ∧ (RagApi.retrieve collC2 2).map RagApi.Experience.id = [1]
    ∧ (RagApi.retrieve collC2 2).length ≠ 2 := by
  refine ⟨by decide, by decide, by decide⟩

/-- Claim C2 (amended): if the `min(top_k*3, count)` fetched candidates
themselves contain chunks of at least `k` distinct records, then `retrieve`
returns exactly `k` distinct record ids; the result lists the first
occurrences of the distinct ids in ascending-distance order, and each emitted
record is represented by its best-ranked (minimal-distance) candidate chunk. -/
theorem c2_retrieve_topk_distinct (coll : List RagApi.ChunkEntry) (k : Nat)
    (h : k ≤ (RagApi.firstOccAux (RagApi.fetched coll k) []).length) :
    RagApi.retrieve coll k = (RagApi.chosen coll k).map RagApi.mkExperience
    ∧ (RagApi.retrieve coll k).length = k
    ∧ ((RagApi.retrieve coll k).map RagApi.Experience.id).Nodup
    ∧ (RagApi.chosen coll k).Pairwise RagApi.distLe
    ∧ ∀ e ∈ RagApi.chosen coll k, ∀ c ∈ RagApi.fetched coll k,
        c.experience_id = e.experience_id → e.dist ≤ c.dist := by
  have hret : RagApi.retrieve coll k = (RagApi.chosen coll k).map RagApi.mkExperience := by
    unfold RagApi.retrieve RagApi.processResults RagApi.chosen
    rw [RagApi.retrieveGo_eq]
    simp
  refine ⟨hret, ?_, ?_, ?_, ?_⟩
  · rw [hret]
    unfold RagApi.chosen
    rw [List.length_map, List.length_take]
    omega
  · rw [hret, List.map_map]
    show ((RagApi.chosen coll k).map (fun c => c.experience_id)).Nodup
    unfold RagApi.chosen
    rw [List.map_take _ _ _]
    exact (RagApi.firstOccAux_keys_nodup _ _).sublist (List.take_sublist _ _)
  · exact List.Pairwise.sublist
      ((List.take_sublist _ _).trans (RagApi.firstOccAux_sublist _ _))
      (RagApi.fetched_pairwise coll k)
  · intro e he c hc hkey
    have he2 : e ∈ RagApi.firstOccAux (RagApi.fetched coll k) [] :=
      List.take_subset _ _ he
    exact RagApi.firstOccAux_min_dist (RagApi.fetched coll k) []
      (RagApi.fetched_pairwise coll k) e he2 c hc hkey

/-- Witness for `c2_retrieve_topk_distinct` on a concrete two-record
collection with `top_k = 2`. -/
theorem c2_retrieve_topk_distinct_witness :
    2 ≤ (RagApi.firstOccAux (RagApi.fetched collC2W 2) []).length
    ∧ (RagApi.retrieve collC2W 2 = (RagApi.chosen collC2W 2).map RagApi.mkExperience
        ∧ (RagApi.retrieve collC2W 2).length = 2
        ∧ ((RagApi.retrieve collC2W 2).map RagApi.Experience.id).Nodup
        ∧ (RagApi.chosen collC2W 2).Pairwise RagApi.distLe
        ∧ ∀ e ∈ RagApi.chosen collC2W 2, ∀ c ∈ RagApi.fetched collC2W 2,
            c.experience_id = e.experience_id → e.dist ≤ c.dist) :=
  ⟨by decide, c2_retrieve_topk_distinct collC2W 2 (by decide)⟩

/-! ### Claim C5 -/

/-- Claim C5 (confirmed): retrieving from a collection with `count() == 0`
returns the empty result list (the clamp makes `n_results = 0`, the fetched
candidate list is empty, and the dedup loop emits nothing), with no error. -/
theorem c5_empty_collection_returns_empty (coll : List RagApi.ChunkEntry)
    (k : Nat) (h : coll.length = 0) :
    RagApi.retrieve coll k = [] := by
  have hnil : coll = [] := List.length_eq_zero.mp h
  subst hnil
  unfold RagApi.retrieve RagApi.fetched RagApi.queryNearest RagApi.processResults
  simp [RagApi.retrieveGo]

/-- Witness for `c5_empty_collection_returns_empty` at the empty collection
and the default `top_k = 5`. -/
theorem c5_empty_collection_returns_empty_witness :
    ([] : List RagApi.ChunkEntry).length = 0 ∧ RagApi.retrieve [] 5 = [] :=
  ⟨rfl, c5_empty_collection_returns_empty [] 5 rfl⟩

/-! ### Claim C9 -/

/-- Claim C9 (confirmed): the number of candidate chunks the endpoint obtains
from the vector index is exactly `min(top_k * 3, collection.count())`: the
3-fold over-fetch clamped to the collection's current size. -/
theorem c9_overfetch_clamped (coll : List RagApi.ChunkEntry) (k : Nat) :
    (RagApi.fetched coll k).length = min (k * 3) coll.length := by
  unfold RagApi.fetched RagApi.queryNearest
  rw [List.length_take, List.length_insertionSort]
  omega

namespace Ingest

/-- Taking up to the collection length is the same as taking `n`. -/
theorem take_min_length {α : Type} (l : List α) (n : Nat) :
    l.take (min n l.length) = l.take n := by
  rw [← List.take_take, List.take_length]

/-- Slicing an empty entry list yields no batches. -/
theorem storeBatches_nil (bs : Nat) (hbs : 0 < bs) :
    storeBatches [] bs = [] := by
  unfold storeBatches
  have h : (List.length ([] : List IndexEntry) + bs - 1) / bs = 0 :=
    Nat.div_eq_of_lt (by simp; omega)
  rw [h]
  rfl

/-- Unfolding of the range-based batch slicing: the first batch is the first
`bs` entries and the remaining batches slice the rest. -/
theorem storeBatches_cons (bs : Nat) (hbs : 0 < bs) (es : List IndexEntry)
    (hne : es ≠ []) :
    storeBatches es bs = es.take bs :: storeBatches (es.drop bs) bs := by
  have hlen : 0 < es.length := List.length_pos.mpr hne
  have htot : (es.length + bs - 1) / bs = (((es.drop bs).length + bs - 1) / bs) + 1 := by
    rw [List.length_drop]
    have e1 : es.length + bs - 1 = (es.length - 1) + bs := by omega
    rw [e1, Nat.add_div_right _ hbs]
    have hinner : (es.length - 1) / bs = (es.length - bs + bs - 1) / bs := by
      rcases le_or_lt es.length bs with hle | hlt
      · have h1 : es.length - bs = 0 := by omega
        rw [h1]
        have h2 : (0 + bs - 1) / bs = 0 := Nat.div_eq_of_lt (by omega)
        have h3 : (es.length - 1) / bs = 0 := Nat.div_eq_of_lt (by omega)
        omega
      · have e2 : es.length - bs + bs - 1 = (es.length - bs - 1) + bs := by omega
        have e3 : es.length - 1 = (es.length - bs - 1) + bs := by omega
        rw [e2, Nat.add_div_right _ hbs, e3, Nat.add_div_right _ hbs]
    omega
  simp only [storeBatches]
  rw [htot, List.range_succ_eq_map, List.map_cons, List.map_map]
  congr 1
  · show (es.drop (0 * bs)).take (min ((0 + 1) * bs) es.length - 0 * bs) = es.take bs
    have h0 : (0 : Nat) * bs = 0 := by ring
    have h1 : (0 + 1) * bs = bs := by ring
    rw [h0, h1, List.drop_zero, Nat.sub_zero, take_min_length]
  · refine List.map_congr_left ?_
    intro i _
    show (es.drop ((i + 1) * bs)).take (min ((i + 1 + 1) * bs) es.length - (i + 1) * bs)
        = ((es.drop bs).drop (i * bs)).take
            (min ((i + 1) * bs) (es.drop bs).length - i * bs)
    rw [List.drop_drop, List.length_drop]
    have e1 : bs + i * bs = (i + 1) * bs := by ring
    rw [e1]
    congr 1
    have e2 : (i + 1) * bs = i * bs + bs := by ring
    have e3 : (i + 1 + 1) * bs = i * bs + bs + bs := by ring
    rw [e2, e3]
    omega

/-- The batch slices cover the entry list exactly. -/
theorem storeBatches_flatten (bs : Nat) (hbs : 0 < bs) (es : List IndexEntry) :
    (storeBatches es bs).flatten = es := by
  have haux : ∀ (n : Nat) (l : List IndexEntry), l.length ≤ n →
      (storeBatches l bs).flatten = l := by
    intro n
    induction n with
    | zero =>
      intro l h
      have hl : l = [] := List.eq_nil_of_length_eq_zero (by omega)
      rw [hl, storeBatches_nil bs hbs]
      rfl
    | succ n ih =>
      intro l h
      by_cases hl : l = []
      · rw [hl, storeBatches_nil bs hbs]
        rfl
      · rw [storeBatches_cons bs hbs l hl, List.flatten_cons,
          ih (l.drop bs) (by rw [List.length_drop]; omega),
          List.take_append_drop]
  exact haux es.length es le_rfl

/-- Folding the per-batch writes equals one sequential write of all entries. -/
theorem foldl_addBatch_flatten (L : List (List IndexEntry)) :
    ∀ s : Store, L.foldl addBatch s = addBatch s L.flatten := by
  induction L with
  | nil => intro s; rfl
  | cons b rest ih =>
    intro s
    rw [List.foldl_cons, ih, List.flatten_cons]
    unfold addBatch
    rw [List.foldl_append]

/-- One ingestion run writes exactly the run's entries, in order. -/
theorem ingestRun_eq_addBatch (s : Store) (split : SplitFn) (svc : EmbedSvc)
    (exps : List Exp) :
    ingestRun s split svc exps = addBatch s (ingestEntries split svc exps) := by
  unfold ingestRun
  rw [foldl_addBatch_flatten, storeBatches_flatten 100 (by omega)]

/-- Keys present after one write: the written id plus the previous keys. -/
theorem storeKeys_upsert1 (s : Store) (e : IndexEntry) (x : String) :
    x ∈ storeKeys (upsert1 s e) ↔ x = e.chunk_id ∨ x ∈ storeKeys s := by
  induction s with
  | nil => simp [upsert1, storeKeys]
  | cons a rest ih =>
    unfold upsert1
    by_cases h : a.chunk_id = e.chunk_id
    · rw [if_pos h]
      simp only [storeKeys, List.map_cons, List.mem_cons]
      rw [h]
      tauto
    · rw [if_neg h]
      simp only [storeKeys, List.map_cons, List.mem_cons] at ih ⊢
      rw [ih]
      tauto

/-- Writing an id that is already present leaves the collection size
unchanged: the write overwrites instead of duplicating. -/
theorem storeSize_upsert1_mem (s : Store) (e : IndexEntry)
    (h : e.chunk_id ∈ storeKeys s) :
    storeSize (upsert1 s e) = storeSize s := by
  induction s with
  | nil => simp [storeKeys] at h
  | cons a rest ih =>
    unfold upsert1
    by_cases hk : a.chunk_id = e.chunk_id
    · rw [if_pos hk]
      rfl
    · rw [if_neg hk]
      have hr : e.chunk_id ∈ storeKeys rest := by
        simp only [storeKeys, List.map_cons, List.mem_cons] at h
        rcases h with h | h
        · exact absurd h.symm hk
        · exact h
      show (upsert1 rest e).length + 1 = rest.length + 1
      have := ih hr
      unfold storeSize at this
      omega

/-- Writing a batch whose ids are all already present does not change the
collection size. -/
theorem addBatch_size_of_keys (es : List IndexEntry) : ∀ s : Store,
    (∀ e ∈ es, e.chunk_id ∈ storeKeys s) → storeSize (addBatch s es) = storeSize s := by
  induction es with
  | nil => intro s _; rfl
  | cons e rest ih =>
    intro s h
    have he : e.chunk_id ∈ storeKeys s := h e (List.mem_cons_self _ _)
    show storeSize (addBatch (upsert1 s e) rest) = storeSize s
    rw [ih (upsert1 s e) ?_, storeSize_upsert1_mem s e he]
    intro e2 he2
    exact (storeKeys_upsert1 s e e2.chunk_id).mpr
      (Or.inr (h e2 (List.mem_cons_of_mem _ he2)))

/-- Keys only accumulate under sequential writes. -/
theorem storeKeys_addBatch_mono (es : List IndexEntry) : ∀ (s : Store) (x : String),
    x ∈ storeKeys s → x ∈ storeKeys (addBatch s es) := by
  induction es with
  | nil => intro s x hx; exact hx
  | cons e rest ih =>
    intro s x hx
    exact ih (upsert1 s e) x ((storeKeys_upsert1 s e x).mpr (Or.inr hx))

/-- After writing a list of entries, every written id is present. -/
theorem mem_storeKeys_addBatch (es : List IndexEntry) : ∀ (s : Store)
    (e : IndexEntry), e ∈ es → e.chunk_id ∈ storeKeys (addBatch s es) := by
  induction es with
  | nil => intro s e he; simp at he
  | cons a rest ih =>
    intro s e he
    rcases List.mem_cons.mp he with he | he
    · rw [he]
      exact storeKeys_addBatch_mono rest (upsert1 s a) a.chunk_id
        ((storeKeys_upsert1 s a a.chunk_id).mpr (Or.inl rfl))
    · exact ih (upsert1 s a) e he

/-- Under `mkSvc`, embedding succeeds exactly on the non-`bad` texts. -/
theorem get_embedding_mkSvc (bad : String → Bool) (f : String → Vec) (t : String) :
    get_embedding (mkSvc bad f) t = if bad t then none else some (f t) := by
  unfold get_embedding mkSvc
  by_cases h : bad t
  · simp [h]
  · simp [h]

/-- The per-chunk skip loop keeps exactly the chunks whose embedding
succeeded, in order. -/
theorem filterMap_mkSvc_aux (bad : String → Bool) (f : String → Vec) (exp : Exp)
    (total : Nat) : ∀ l : List (Nat × String),
    l.filterMap (fun p =>
      match get_embedding (mkSvc bad f) p.2 with
      | none => none
      | some emb => some (entryFor exp p.1 p.2 total emb))
    = ((l.map (fun p => (exp, p.1, p.2))).filter (fun q => !bad q.2.2)).map
        (fun q => entryFor q.1 q.2.1 q.2.2 total (f q.2.2)) := by
  intro l
  induction l with
  | nil => rfl
  | cons p ps ih =>
    have hge := get_embedding_mkSvc bad f p.2
    by_cases h : bad p.2
    · rw [if_pos h] at hge
      simp only [List.filterMap_cons, hge, List.map_cons, List.filter_cons]
      simp only [h, Bool.not_true, Bool.false_eq_true, if_false]
      exact ih
    · rw [if_neg h] at hge
      simp only [List.filterMap_cons, hge, List.map_cons, List.filter_cons]
      simp only [h, Bool.not_false, if_true, List.map_cons]
      rw [ih]

/-- One record's entries under `mkSvc`: its visited chunks, minus the `bad`
ones, mapped to index entries. -/
theorem recordEntries_mkSvc (split : SplitFn) (bad : String → Bool)
    (f : String → Vec) (exp : Exp) :
    recordEntries split (mkSvc bad f) exp
      = (((recordChunks split exp).enum.map (fun p => (exp, p.1, p.2))).filter
          (fun q => !bad q.2.2)).map
          (fun q => entryFor q.1 q.2.1 q.2.2 (recordChunks split exp).length (f q.2.2)) := by
  simp only [recordEntries]
  exact filterMap_mkSvc_aux bad f exp (recordChunks split exp).length
    (recordChunks split exp).enum

/-- A full ingestion run under `mkSvc` produces one entry per visited chunk
whose embedding succeeded: a failing chunk is dropped while every other chunk
of the same record and of all other records is still written. -/
theorem ingestEntries_mkSvc (split : SplitFn) (bad : String → Bool)
    (f : String → Vec) : ∀ exps : List Exp,
    ingestEntries split (mkSvc bad f) exps
      = ((allChunks split exps).filter (fun q => !bad q.2.2)).map
          (fun q => entryFor q.1 q.2.1 q.2.2 (recordChunks split q.1).length (f q.2.2)) := by
  intro exps
  induction exps with
  | nil => rfl
  | cons e rest ih =>
    simp only [ingestEntries, allChunks, List.flatMap_cons, List.filter_append,
      List.map_append] at ih ⊢
    rw [ih]
    congr 1
    rw [recordEntries_mkSvc]
    refine List.map_congr_left ?_
    intro q hq
    rcases List.mem_map.mp (List.mem_of_mem_filter hq) with ⟨p, _, hpq⟩
    rw [← hpq]

end Ingest

/-! ### Claim C6 -/

/-- Claim C6 (confirmed): during ingestion each chunk is embedded first with
the document intent; if that fails, exactly one retry is made with the intent
omitted and its vector is used when it succeeds; if both attempts fail only
that chunk is skipped — under a service failing exactly on `bad` texts, the
run's entries are precisely the non-`bad` visited chunks of all records, in
order. -/
theorem c6_embedding_fallback_and_chunk_skip (split : SplitFn) (svc : EmbedSvc)
    (bad : String → Bool) (f : String → Vec) (exps : List Ingest.Exp)
    (t : String) (v : Vec)
    (h1 : svc (some "retrieval_document") t = none)
    (h2 : svc none t = some v) :
    Ingest.get_embedding svc t = some v
    ∧ (∀ t2 v2, svc (some "retrieval_document") t2 = some v2 →
        Ingest.get_embedding svc t2 = some v2)
    ∧ (∀ t2, svc (some "retrieval_document") t2 = none → svc none t2 = none →
        Ingest.get_embedding svc t2 = none)
    ∧ Ingest.ingestEntries split (Ingest.mkSvc bad f) exps
        = ((Ingest.allChunks split exps).filter (fun q => !bad q.2.2)).map
            (fun q => Ingest.entryFor q.1 q.2.1 q.2.2
              (Ingest.recordChunks split q.1).length (f q.2.2)) := by
  refine ⟨?_, ?_, ?_, Ingest.ingestEntries_mkSvc split bad f exps⟩
  · unfold Ingest.get_embedding
    rw [h1, h2]
  · intro t2 v2 hs
    unfold Ingest.get_embedding
    rw [hs]
  · intro t2 hs1 hs2
    unfold Ingest.get_embedding
    rw [hs1, hs2]

/-- Witness for `c6_embedding_fallback_and_chunk_skip` at a concrete service,
splitter, corpus and text. -/
theorem c6_embedding_fallback_and_chunk_skip_witness :
    svcC6W (some "retrieval_document") "hello" = none
    ∧ svcC6W none "hello" = some [1]
    ∧ (Ingest.get_embedding svcC6W "hello" = some [1]
      ∧ (∀ t2 v2, svcC6W (some "retrieval_document") t2 = some v2 →
          Ingest.get_embedding svcC6W t2 = some v2)
      ∧ (∀ t2, svcC6W (some "retrieval_document") t2 = none → svcC6W none t2 = none →
          Ingest.get_embedding svcC6W t2 = none)
      ∧ Ingest.ingestEntries (fun _ _ s => [s])
            (Ingest.mkSvc (fun s => s == "x") (fun _ => [0])) [expC6W]
          = ((Ingest.allChunks (fun _ _ s => [s]) [expC6W]).filter
              (fun q => !(q.2.2 == "x"))).map
              (fun q => Ingest.entryFor q.1 q.2.1 q.2.2
                (Ingest.recordChunks (fun _ _ s => [s]) q.1).length ([0] : Vec))) := by
  refine ⟨rfl, rfl, ?_⟩
  exact c6_embedding_fallback_and_chunk_skip (fun _ _ s => [s]) svcC6W
    (fun s => s == "x") (fun _ => [0]) [expC6W] "hello" [1] rfl rfl

/-! ### Claim C4 -/

/-- Claim C4 (confirmed, store write semantics modelled from the spec):
writing an entry whose `chunk_id` is already present overwrites the stored
entry rather than duplicating it, so the collection size is unchanged; and
since re-running ingestion on an unchanged corpus regenerates the same
deterministic entries (the pipeline is a pure function of corpus, splitter
and embedding service), a second run writes only already-present
`chunk_id`s and leaves the index size unchanged. -/
theorem c4_chunk_id_overwrite_reingest_size (split : SplitFn) (svc : EmbedSvc)
    (exps : List Ingest.Exp) (s : Ingest.Store) (e : Ingest.IndexEntry)
    (h : e.chunk_id ∈ Ingest.storeKeys s) :
    Ingest.storeSize (Ingest.upsert1 s e) = Ingest.storeSize s
    ∧ Ingest.storeSize
        (Ingest.ingestRun (Ingest.ingestRun Ingest.emptyStore split svc exps)
          split svc exps)
      = Ingest.storeSize (Ingest.ingestRun Ingest.emptyStore split svc exps) := by
  refine ⟨Ingest.storeSize_upsert1_mem s e h, ?_⟩
  simp only [Ingest.ingestRun_eq_addBatch]
  exact Ingest.addBatch_size_of_keys _ _
    (fun e2 he2 => Ingest.mem_storeKeys_addBatch _ Ingest.emptyStore e2 he2)

/-- Witness for `c4_chunk_id_overwrite_reingest_size` at a concrete store,
entry, corpus, splitter and service. -/
theorem c4_chunk_id_overwrite_reingest_size_witness :
    entC4W.chunk_id ∈ Ingest.storeKeys [entC4W]
    ∧ (Ingest.storeSize (Ingest.upsert1 [entC4W] entC4W) = Ingest.storeSize [entC4W]
      ∧ Ingest.storeSize
          (Ingest.ingestRun
            (Ingest.ingestRun Ingest.emptyStore (fun _ _ s => [s])
              (fun _ _ => some [0]) [expC4W])
            (fun _ _ s => [s]) (fun _ _ => some [0]) [expC4W])
        = Ingest.storeSize
            (Ingest.ingestRun Ingest.emptyStore (fun _ _ s => [s])
              (fun _ _ => some [0]) [expC4W])) := by
  refine ⟨by simp [Ingest.storeKeys, entC4W], ?_⟩
  exact c4_chunk_id_overwrite_reingest_size (fun _ _ s => [s]) (fun _ _ => some [0])
    [expC4W] [entC4W] entC4W (by simp [Ingest.storeKeys, entC4W])

namespace TechQA

/-- Shape of the long-answer entries: when every embedding succeeds, chunk
`idx` (counting from `n`) yields id `qa_{id}_chunk_{idx}` with `chunk_index
idx` and the common `total_chunks`. -/
theorem qaLongEntries_aux (svc : EmbedSvc) (qa : QA) (i : Int)
    (total : Nat) (hs : ∀ t, (get_embedding svc t).isSome = true) :
    ∀ (l : List String) (n : Nat),
    ((List.enumFrom n l).filterMap (fun p =>
      match get_embedding svc (longAnswerChunkText qa p.1 p.2) with
      | none => none
      | some emb => some
          (⟨"qa_" ++ toString (qaId qa i) ++ "_chunk_" ++ toString p.1,
            emb, longAnswerChunkText qa p.1 p.2, qaId qa i,
            qa.question.take 200, qa.answer.take 500,
            String.intercalate ", " qa.tags, qa.category,
            p.1, total⟩ : QAEntry))).map
        (fun e => (e.chunk_id, e.chunk_index, e.total_chunks))
    = (List.range' n l.length).map
        (fun idx => ("qa_" ++ toString (qaId qa i) ++ "_chunk_" ++ toString idx,
          idx, total)) := by
  intro l
  induction l with
  | nil => intro n; rfl
  | cons c cs ih =>
    intro n
    obtain ⟨v, hv⟩ := Option.isSome_iff_exists.mp (hs (longAnswerChunkText qa n c))
    show ((List.enumFrom n (c :: cs)).filterMap _).map _ = _
    rw [show List.enumFrom n (c :: cs) = (n, c) :: List.enumFrom (n + 1) cs from rfl,
      List.filterMap_cons]
    simp only [hv]
    rw [List.map_cons, List.length_cons, List.range'_succ, List.map_cons, ih (n + 1)]

end TechQA

/-! ### Claim C10 -/

/-- Claim C10 (confirmed): in the technical Q&A ingestion, assuming every
embedding request succeeds, a pair whose answer has at most 500 characters
produces exactly one entry with id `qa_{id}` (no `_chunk_` suffix),
`chunk_index 0` and `total_chunks 1`; a pair with a longer answer produces
one entry per answer chunk with ids `qa_{id}_chunk_{idx}`, `chunk_index idx`
and `total_chunks` equal to the number of answer chunks. -/
theorem c10_answer_chunking_branch (split : SplitFn) (svc : EmbedSvc)
    (qa : TechQA.QA) (i : Int)
    (hs : ∀ t, (TechQA.get_embedding svc t).isSome = true) :
    (qa.answer.length ≤ 500 →
      (TechQA.qaEntriesFor split svc i qa).map
          (fun e => (e.chunk_id, e.chunk_index, e.total_chunks))
        = [("qa_" ++ toString (TechQA.qaId qa i), 0, 1)])
    ∧ (qa.answer.length > 500 →
      (TechQA.qaEntriesFor split svc i qa).map
          (fun e => (e.chunk_id, e.chunk_index, e.total_chunks))
        = (List.range (TechQA.chunk_text_list split qa.answer).length).map
            (fun idx => ("qa_" ++ toString (TechQA.qaId qa i) ++ "_chunk_" ++ toString idx,
              idx, (TechQA.chunk_text_list split qa.answer).length))) := by
  constructor
  · intro h1
    obtain ⟨v, hv⟩ := Option.isSome_iff_exists.mp (hs (TechQA.create_text_for_embedding qa))
    simp only [TechQA.qaEntriesFor]
    rw [if_neg (by omega)]
    simp only [hv]
    rfl
  · intro h1
    simp only [TechQA.qaEntriesFor]
    rw [if_pos (by omega)]
    rw [show (TechQA.chunk_text_list split qa.answer).enum
        = List.enumFrom 0 (TechQA.chunk_text_list split qa.answer) from rfl]
    rw [TechQA.qaLongEntries_aux svc qa i
      (TechQA.chunk_text_list split qa.answer).length hs
      (TechQA.chunk_text_list split qa.answer) 0]
    rw [List.range_eq_range']

/-- Witness for `c10_answer_chunking_branch` at a concrete always-succeeding
service, identity splitter and short-answer pair. -/
theorem c10_answer_chunking_branch_witness :
    (∀ t, (TechQA.get_embedding (fun _ _ => some ([0] : Vec)) t).isSome = true)
    ∧ ((qaC10W.answer.length ≤ 500 →
        (TechQA.qaEntriesFor (fun _ _ s => [s]) (fun _ _ => some ([0] : Vec)) 1 qaC10W).map
            (fun e => (e.chunk_id, e.chunk_index, e.total_chunks))
          = [("qa_" ++ toString (TechQA.qaId qaC10W 1), 0, 1)])
      ∧ (qaC10W.answer.length > 500 →
        (TechQA.qaEntriesFor (fun _ _ s => [s]) (fun _ _ => some ([0] : Vec)) 1 qaC10W).map
            (fun e => (e.chunk_id, e.chunk_index, e.total_chunks))
          = (List.range (TechQA.chunk_text_list (fun _ _ s => [s]) qaC10W.answer).length).map
              (fun idx => ("qa_" ++ toString (TechQA.qaId qaC10W 1) ++ "_chunk_" ++ toString idx,
                idx, (TechQA.chunk_text_list (fun _ _ s => [s]) qaC10W.answer).length)))) :=
  ⟨fun _ => rfl,
   c10_answer_chunking_branch (fun _ _ s => [s]) (fun _ _ => some ([0] : Vec))
     qaC10W 1 (fun _ => rfl)⟩
